import Mathlib

/-!
Verification of the document-ingestion and retrieval core of the
`bot_constructor` repository (`bot_constructor/rag.py`): text chunking,
top-k retrieval, and heuristic catalog extraction with number/currency
normalization.

Strings are modelled as `List Char` (Python `str` is a sequence of code
points).  Python regular expressions are embedded as the deterministic
matchers they denote on the relevant inputs: every alternative and
quantifier of the concrete patterns in the source is resolved exactly as
the backtracking engine resolves it (leftmost match, ordered alternation,
greedy quantifiers; for these patterns everything after the mandatory
number group is optional, so no backtracking across groups ever occurs).
Python `float` values are modelled as rationals.  Fallible code returns
`Option`: `none` models an uncaught exception.
-/

namespace Rag

/-- Python strings as lists of code points. -/
abbrev Str := List Char

/-- The character set Python's `\s` (and `str.strip()` / `str.split()`)
treats as whitespace, restricted to the code points that occur in this
development (ASCII whitespace plus no-break space). -/
def pyWs (c : Char) : Bool :=
  c == ' ' || c == '\t' || c == '\n' || c == '\r' ||
  c == '\x0b' || c == '\x0c' || c == ' '

/-- ASCII decimal digit, modelling `\d` / `[0-9]` on the inputs in scope. -/
def isDigitA (c : Char) : Bool := c.isDigit

/-- A word character for `\b` (`[A-Za-z0-9_]` on the inputs in scope). -/
def isWordChar (c : Char) : Bool := c.isAlphanum || c == '_'

/-- `str.strip()`: drop leading and trailing whitespace. -/
def pyStrip (s : Str) : Str :=
  ((s.dropWhile pyWs).reverse.dropWhile pyWs).reverse

/-- `str.strip(chars)`: drop leading and trailing characters from `cs`. -/
def pyStripChars (s : Str) (cs : List Char) : Str :=
  ((s.dropWhile (cs.contains ·)).reverse.dropWhile (cs.contains ·)).reverse

/-- Auxiliary scanner for `str.splitlines()`; a line terminator at the very
end of the input does not contribute a final empty line. -/
def pySplitlinesGo (acc : Str) : Str → List Str
  | [] => [acc.reverse]
  | c :: rest =>
    if c = '\n' then
      acc.reverse :: (if rest.isEmpty then [] else pySplitlinesGo [] rest)
    else
      pySplitlinesGo (c :: acc) rest

/-- `str.splitlines()` (the inputs in scope use `\n` line terminators only);
`"".splitlines()` is `[]`. -/
def pySplitlines (s : Str) : List Str :=
  if s.isEmpty then [] else pySplitlinesGo [] s

/-- Auxiliary scanner for `str.split()` with fuel (each step removes at
least one character, so `length s` steps suffice). -/
def pySplitGo : ℕ → Str → List Str
  | 0, _ => []
  | fuel + 1, s =>
    let s1 := s.dropWhile pyWs
    if s1.isEmpty then []
    else
      s1.takeWhile (fun c => !pyWs c) ::
        pySplitGo fuel (s1.dropWhile (fun c => !pyWs c))

/-- `str.split()` with no arguments: split on whitespace runs, dropping
empty fields. -/
def pySplit (s : Str) : List Str := pySplitGo s.length s

/-- `sep.join(parts)`. -/
def joinSep (sep : Str) : List Str → Str
  | [] => []
  | [p] => p
  | p :: q :: rest => p ++ sep ++ joinSep sep (q :: rest)

/-! ### The price-token pattern `_PRICE_RE`

```
(?P<num> \d{1,3}(?:[ .]\d{3})*(?:[.,]\d{1,2})? | \d+(?:[.,]\d{1,2})? )
\s* (?P<cur> ₸|тг|тенге|kzt|₽|руб\.?|рублей|rub|\$|usd|€|eur )?
```

Both alternatives of `num` start with a digit and the first succeeds at
every position whose character is a digit (everything after `\d{1,3}` in
it is starred or optional), so the second alternative is never taken and
a search match begins exactly at the first digit of the line. -/

/-- Greedy `(?:[ .]\d{3})*`: consumed characters and the rest. -/
def sepGroups : Str → Str × Str
  | c :: d1 :: d2 :: d3 :: rest =>
    if (c == ' ' || c == '.') && isDigitA d1 && isDigitA d2 && isDigitA d3 then
      let p := sepGroups rest
      (c :: d1 :: d2 :: d3 :: p.1, p.2)
    else
      ([], c :: d1 :: d2 :: d3 :: rest)
  | l => ([], l)

/-- Greedy `(?:[.,]\d{1,2})?`: consumed characters and the rest. -/
def fracOpt : Str → Str × Str
  | c :: d :: rest =>
    if (c == '.' || c == ',') && isDigitA d then
      match rest with
      | d2 :: rest2 =>
        if isDigitA d2 then ([c, d, d2], rest2) else ([c, d], rest)
      | [] => ([c, d], [])
    else
      ([], c :: d :: rest)
  | l => ([], l)

/-- The `num` group at the current position: matched characters and the
rest, or `none` when the position does not start with a digit. -/
def numGroup (l : Str) : Option (Str × Str) :=
  let ds := (l.takeWhile isDigitA).take 3
  if ds.isEmpty then none
  else
    let rest := l.drop ds.length
    let p := sepGroups rest
    let q := fracOpt p.2
    some (ds ++ p.1 ++ q.1, q.2)

/-- Lower-casing for `re.IGNORECASE`, covering ASCII and the Cyrillic
letters of the currency tokens. -/
def pyLower (c : Char) : Char :=
  if 'A' ≤ c && c ≤ 'Z' then Char.ofNat (c.toNat + 32)
  else if 'А' ≤ c && c ≤ 'Я' then Char.ofNat (c.toNat + 32)
  else if c = 'Ё' then 'ё'
  else c

/-- Upper-casing (`str.upper()`) on the same character range. -/
def pyUpper (c : Char) : Char :=
  if 'a' ≤ c && c ≤ 'z' then Char.ofNat (c.toNat - 32)
  else if 'а' ≤ c && c ≤ 'я' then Char.ofNat (c.toNat - 32)
  else if c = 'ё' then 'Ё'
  else c

/-- Case-insensitive literal token match: the consumed original
characters and the rest. -/
def matchTokenCI (tok : Str) (l : Str) : Option (Str × Str) :=
  if (l.take tok.length).map pyLower = tok then
    some (l.take tok.length, l.drop tok.length)
  else none

/-- The `cur` group: the ordered alternation
`₸|тг|тенге|kzt|₽|руб\.?|рублей|rub|\$|usd|€|eur` (first alternative that
matches wins; for `руб\.?` a directly following `.` is consumed). -/
def curGroup (l : Str) : Option (Str × Str) :=
  match matchTokenCI "₸".data l with
  | some r => some r
  | none =>
  match matchTokenCI "тг".data l with
  | some r => some r
  | none =>
  match matchTokenCI "тенге".data l with
  | some r => some r
  | none =>
  match matchTokenCI "kzt".data l with
  | some r => some r
  | none =>
  match matchTokenCI "₽".data l with
  | some r => some r
  | none =>
  match matchTokenCI "руб".data l with
  | some (m, rest) =>
    match rest with
    | '.' :: rest2 => some (m ++ ['.'], rest2)
    | _ => some (m, rest)
  | none =>
  match matchTokenCI "рублей".data l with
  | some r => some r
  | none =>
  match matchTokenCI "rub".data l with
  | some r => some r
  | none =>
  match matchTokenCI "$".data l with
  | some r => some r
  | none =>
  match matchTokenCI "usd".data l with
  | some r => some r
  | none =>
  match matchTokenCI "€".data l with
  | some r => some r
  | none => matchTokenCI "eur".data l

/-- A match of `_PRICE_RE`: span start and end in the line, the `num`
group, and the `cur` group (`none` when absent). -/
structure PriceMatch where
  start : ℕ
  stop : ℕ
  num : Str
  cur : Option Str
deriving DecidableEq, Repr

/-- Whole-pattern match at the current position (which must start with a
digit): `num`, then greedy `\s*`, then the optional `cur`.  When `cur`
fails the greedily consumed whitespace stays inside the span. -/
def priceMatchAt (l : Str) : Option (Str × Option Str × ℕ) :=
  match numGroup l with
  | none => none
  | some (num, rest) =>
    let ws := rest.takeWhile pyWs
    let rest2 := rest.drop ws.length
    match curGroup rest2 with
    | some (cm, _) => some (num, some cm, num.length + ws.length + cm.length)
    | none => some (num, none, num.length + ws.length)

/-- Scanner for `_PRICE_RE.search`: try each position left to right. -/
def priceSearchGo (i : ℕ) : Str → Option PriceMatch
  | [] => none
  | c :: rest =>
    match priceMatchAt (c :: rest) with
    | some (num, cur, len) => some ⟨i, i + len, num, cur⟩
    | none => priceSearchGo (i + 1) rest

/-- `_PRICE_RE.search(line)`: the leftmost match, if any. -/
def priceSearch (line : Str) : Option PriceMatch := priceSearchGo 0 line

/-! ### `_normalize_number`, `_normalize_currency` -/

/-- `\b` right after a digit: holds at end of input or before a non-word
character. -/
def euroBnd : Str → Bool
  | [] => true
  | c :: _ => !isWordChar c

/-- Tail of `\d+\.\d{3}(?:\.|\b)` after at least one digit was consumed:
either `.` plus three digits plus the closing `\.|\b` here, or one more
digit and recurse. -/
def euroTail : Str → Bool
  | [] => false
  | c :: rest =>
    (c == '.' &&
      (match rest with
       | d1 :: d2 :: d3 :: r2 =>
         isDigitA d1 && isDigitA d2 && isDigitA d3 && euroBnd r2
       | _ => false)) ||
    (isDigitA c && euroTail rest)

/-- `re.search(r"\d+\.\d{3}(?:\.|\b)", s)` as a Boolean: some position
starts a digit run followed by `.`, three digits and `\.|\b`. -/
def hasEuroShape : Str → Bool
  | [] => false
  | c :: rest => (isDigitA c && euroTail rest) || hasEuroShape rest

/-- `','` becomes `'.'` (Python `s.replace(",", ".")`). -/
def commaToDot (c : Char) : Char := if c = ',' then '.' else c

/-- Value of a digit string read in base 10. -/
def digitsVal (s : Str) : ℕ := s.foldl (fun acc c => acc * 10 + (c.toNat - 48)) 0

/-- The rational denoted by a parsed decimal: sign, integer part,
fraction digits value, fraction length.  The integral case (fraction
value zero) is split off so that it is built from integer casts alone. -/
def qOfParts (neg : Bool) (ip fp fl : ℕ) : ℚ :=
  if fp = 0 then ((cond neg (-(ip : ℤ)) (ip : ℤ) : ℤ) : ℚ)
  else (cond neg (-1) 1 : ℤ) * ((ip : ℚ) + (fp : ℚ) / (10 : ℚ) ^ fl)

/-- The unsigned part of `float(s)`: digits with at most one `.`. -/
def pyFloatCore (neg : Bool) (t : Str) : Option ℚ :=
  if !t.isEmpty && t.all isDigitA then
    some (qOfParts neg (digitsVal t) 0 0)
  else if t.count '.' = 1 then
    let a := t.takeWhile (· ≠ '.')
    let b := (t.dropWhile (· ≠ '.')).drop 1
    if a.all isDigitA && b.all isDigitA && !(a.isEmpty && b.isEmpty) then
      some (qOfParts neg (digitsVal a) (digitsVal b) b.length)
    else none
  else none

/-- CPython `float(s)` on the strings reachable here (an optional sign
followed by digits and at most one `.`); `none` models `ValueError`.
Exponents, underscores, `inf`/`nan` and surrounding whitespace never
occur in the inputs in scope and are rejected by the model. -/
def pyFloat (s : Str) : Option ℚ :=
  if s.head? = some '-' then pyFloatCore true (s.drop 1)
  else if s.head? = some '+' then pyFloatCore false (s.drop 1)
  else pyFloatCore false s

/-- `_normalize_number(num_str)`: strip (no-break) spaces; in the
European shape with a comma remove `.` and turn `,` into `.`, otherwise
only turn `,` into `.`; then `float`, with a retry keeping only digits
and dots.  `none` models the uncaught `ValueError` of the retry. -/
def normalize_number (numStr : Str) : Option ℚ :=
  let s0 := numStr.filter (fun c => !(c == ' ' || c == ' '))
  let s1 :=
    if hasEuroShape s0 && s0.contains ',' then
      (s0.filter (· ≠ '.')).map commaToDot
    else
      s0.map commaToDot
  match pyFloat s1 with
  | some v => some v
  | none =>
    let s2 := s1.filter (fun c => isDigitA c || c == '.')
    if s2.isEmpty then some 0 else pyFloat s2

/-- The `_CURRENCY_MAP` table (keys in lowercase). -/
def CURRENCY_MAP : List (Str × Str) :=
  [("₸".data, "KZT".data), ("тг".data, "KZT".data), ("тенге".data, "KZT".data),
   ("kzt".data, "KZT".data),
   ("₽".data, "RUB".data), ("руб".data, "RUB".data), ("руб.".data, "RUB".data),
   ("рублей".data, "RUB".data), ("rub".data, "RUB".data),
   ("$".data, "USD".data), ("usd".data, "USD".data),
   ("€".data, "EUR".data), ("eur".data, "EUR".data)]

/-- `_normalize_currency(cur)`: `None`/empty stays `None`; otherwise
lower-case, strip whitespace and dots, look up the table, and fall back
to the upper-cased original. -/
def normalize_currency : Option Str → Option Str
  | none => none
  | some c =>
    if c.isEmpty then none
    else
      let key := pyStripChars (pyStrip (c.map pyLower)) ['.']
      match CURRENCY_MAP.lookup key with
      | some code => some code
      | none => some (c.map pyUpper)

/-! ### `extract_catalog_items` -/

/-- `re.sub(r"\s{2,}", " ", name)` with fuel (each step shortens the
list, so its length is enough fuel): a run of two or more whitespace
characters becomes a single space, single whitespace characters stay. -/
def collapseWsGo : ℕ → Str → Str
  | _, [] => []
  | 0, l => l
  | fuel + 1, c :: rest =>
    if pyWs c && (match rest with | d :: _ => pyWs d | [] => false) then
      ' ' :: collapseWsGo fuel (rest.dropWhile pyWs)
    else
      c :: collapseWsGo fuel rest

/-- `re.sub(r"\s{2,}", " ", name)`. -/
def collapseWs (s : Str) : Str := collapseWsGo s.length s

/-- Python `x or y` on an optional string (`None` and `""` are falsy). -/
def pyOrStr (o : Option Str) (d : Str) : Str :=
  match o with
  | some s => if s.isEmpty then d else s
  | none => d

/-- A catalog item record as built by `extract_catalog_items`. -/
structure CatalogItem where
  line_no : ℕ
  name : Str
  price_value : ℚ
  currency : Str
  raw_line : Str
deriving DecidableEq, Repr

/-- The non-blank stripped lines `[ln.strip() for ln in text.splitlines()
if ln.strip()]`. -/
def nonBlankLines (text : Str) : List Str :=
  ((pySplitlines text).map pyStrip).filter (fun l => !l.isEmpty)

/-- One iteration of the extraction loop: `i` is the 1-based position in
the non-blank line list and `prev` the previous non-blank line.  Outer
`none` models an uncaught exception, `some none` a skipped line. -/
def processLine (i : ℕ) (prev : Option Str) (line : Str) :
    Option (Option CatalogItem) :=
  match priceSearch line with
  | none => some none
  | some m =>
    match normalize_number m.num with
    | none => none
    | some v =>
      let curN := normalize_currency m.cur
      let name0 := pyStrip (line.take m.start ++ [' '] ++ line.drop m.stop)
      let name1 := pyStripChars (collapseWs name0) [' ', '|', ':', '-', '—']
      let name2 :=
        if name1.isEmpty && i > 1 then
          match prev with
          | some p =>
            if (priceSearch p).isNone && p.length ≤ 120 then p else name1
          | none => name1
        else name1
      let name3 := if name2.isEmpty then "Позиция".data else name2
      some (some ⟨i, name3, v, pyOrStr curN "KZT".data, line⟩)

/-- The extraction loop over the non-blank lines. -/
def extractGo : ℕ → Option Str → List Str → Option (List CatalogItem)
  | _, _, [] => some []
  | i, prev, line :: rest =>
    match processLine i prev line with
    | none => none
    | some none => extractGo (i + 1) (some line) rest
    | some (some item) => (extractGo (i + 1) (some line) rest).map (item :: ·)

/-- `extract_catalog_items(text)`; `none` models an uncaught exception
escaping the function. -/
def extract_catalog_items (text : Str) : Option (List CatalogItem) :=
  extractGo 1 none (nonBlankLines text)

/-! ### `chunk_text` -/

/-- Whitespace normalization `" ".join(text.split())`. -/
def normalizeWs (text : Str) : Str := joinSep [' '] (pySplit text)

/-- The chunking loop of `chunk_text` over the normalized text `t`, with
fuel; `none` models non-termination of the Python `while` loop (which
the source does not guard against when `overlap ≥ max_chars`).  Each
round slices `t[start:end]` with `end = min(n, start + max_chars)`,
keeps it when it strips non-empty, stops when `end = n`, and otherwise
continues from `end - overlap` (clamped at 0, which is what truncated
subtraction on `ℕ` does). -/
def chunkGo (t : Str) (maxChars overlap : ℕ) : ℕ → ℕ → Option (List Str)
  | 0, _ => none
  | fuel + 1, start =>
    if start < t.length then
      let e := min t.length (start + maxChars)
      let chunk := (t.drop start).take (e - start)
      let rest? :=
        if e = t.length then some []
        else chunkGo t maxChars overlap fuel (e - overlap)
      match rest? with
      | none => none
      | some rest =>
        some (if !(pyStrip chunk).isEmpty then chunk :: rest else rest)
    else some []

/-- `chunk_text(text, max_chars, overlap)`; the fuel `length + 1` is
spent only when the window fails to advance. -/
def chunk_text (text : Str) (maxChars overlap : ℕ) : Option (List Str) :=
  let t := normalizeWs text
  chunkGo t maxChars overlap (t.length + 1) 0

/-- Concatenation of the chunks' non-overlapping portions: the first
chunk whole, every later chunk without its first `overlap` characters. -/
def dropJoin (overlap : ℕ) : List Str → Str
  | [] => []
  | c :: cs => c ++ cs.flatMap (List.drop overlap)

/-! ### `xlsx_to_text`

A workbook is modelled structurally: sheets in workbook order, each with
a title and rows of optional cell values; a present cell carries its
`str()` rendering. -/

/-- A sheet: title and rows of optional stringified cell values. -/
structure Sheet where
  title : Str
  rows : List (List (Option Str))
deriving DecidableEq, Repr

/-- The list comprehension over one row: non-`None`, stringified,
stripped, non-empty cell values. -/
def rowCells (row : List (Option Str)) : List Str :=
  row.filterMap (fun c =>
    match c with
    | none => none
    | some s => let t := pyStrip s; if t.isEmpty then none else some t)

/-- The inner `for row in sheet.iter_rows(...)` loop appending to
`parts`. -/
def sheetRowsLoop (parts : List Str) (rows : List (List (Option Str))) :
    List Str :=
  rows.foldl (fun ps row =>
    let cs := rowCells row
    if cs.isEmpty then ps else ps ++ [joinSep " | ".data cs]) parts

/-- `xlsx_to_text`: the two nested loops build `parts` (a header line
per sheet, then one line per non-blank row), then `"\n".join(parts)`. -/
def xlsx_to_text (wb : List Sheet) : Str :=
  joinSep ['\n']
    (wb.foldl (fun parts sh =>
      sheetRowsLoop (parts ++ ["[Лист: ".data ++ sh.title ++ "]".data]) sh.rows)
      [])

/-! ### `_resolve_api_key`, `cosine_sim`, `retrieve_top_k`

Embedding vectors are real vectors (an idealization of the `float32`
vectors of the code); the external embedding call for the question is
modelled by passing the returned query vector as an argument, and the
`chunks` table by the list of `(text, embedding)` rows it holds. -/

/-- An embedding vector. -/
abbrev Vec := List ℝ

/-- `np.dot` on equal-length vectors. -/
def dotProd (a b : Vec) : ℝ := (List.zipWith (· * ·) a b).sum

/-- `np.linalg.norm`. -/
noncomputable def vnorm (a : Vec) : ℝ := Real.sqrt (dotProd a a)

/-- `cosine_sim(a, b)`: `0.0` when either norm is zero, else the
normalized dot product. -/
noncomputable def cosine_sim (a b : Vec) : ℝ :=
  if vnorm a = 0 ∨ vnorm b = 0 then 0 else dotProd a b / (vnorm a * vnorm b)

/-- `_resolve_api_key()`: the configured resolver (when set) wins if it
returns a truthy string, otherwise the `OPENAI_API_KEY` environment
value (`none` models an unset variable). -/
def resolve_api_key (resolver : Option (Option Str)) (env : Option Str) :
    Option Str :=
  match resolver with
  | some r =>
    match r with
    | some k => if k.isEmpty then env else some k
    | none => env
  | none => env

/-- Python truthiness of an optional string (`None` and `""` are
falsy). -/
def pyTruthy : Option Str → Bool
  | none => false
  | some s => !s.isEmpty

/-- The comparison `scored.sort(key=lambda x: x[1], reverse=True)`
realizes: `x` sorts before (or ties with) `y` when `y`'s score is at
most `x`'s.  Python's sort and `List.mergeSort` are both stable, so with
this non-strict comparison they produce the same descending order. -/
noncomputable def scoreLe (x y : Str × ℝ) : Bool := decide (y.2 ≤ x.2)

/-- `retrieve_top_k(question, k)` over an explicit state: `[]` when the
resolved key is falsy; otherwise score every stored chunk row against
the query vector, sort descending by score (stably), and take the first
`k`. -/
noncomputable def retrieve_top_k (resolver : Option (Option Str))
    (env : Option Str) (qv : Vec) (rows : List (Str × Vec)) (k : ℕ) :
    List (Str × ℝ) :=
  if !pyTruthy (resolve_api_key resolver env) then []
  else
    let scored := rows.map (fun r => (r.1, cosine_sim qv r.2))
    (List.mergeSort scored scoreLe).take k

/-! ### Shape predicates used by the theorems -/

/-- An already-normalized decimal string: one or more digits, optionally
followed by `.` and one or more digits. -/
def plainDecimal (s : Str) : Bool :=
  let a := s.takeWhile isDigitA
  let r := s.dropWhile isDigitA
  !a.isEmpty &&
    (r.isEmpty ||
      (r.head? = some '.' && !(r.drop 1).isEmpty && (r.drop 1).all isDigitA))

/-- No two adjacent whitespace characters. -/
def NoAdjWs (t : Str) : Prop :=
  List.Chain' (fun a b => ¬(pyWs a = true ∧ pyWs b = true)) t

/-- The last character, if any, is not whitespace. -/
def LastNonWs (t : Str) : Prop :=
  ∀ c, t.getLast? = some c → ¬pyWs c = true

/-! ## Theorems -/

/-- C1: for the input line `"Кофе латте 1200 тг"` the extractor does
not match the full number `1200` with currency `тг`: the leading
alternative of the price pattern already succeeds on the three digits
`120` (everything after it is optional), so the emitted item has
`price_value` 120, default currency `"KZT"`, and the leftover digit `0`
and the token `тг` end up inside the name.  This contradicts the claimed
scenario (and the example list `2500`, `2 500 тг`, `2500₸` in the
comment above `_PRICE_RE` in the source). -/
theorem C1_scenarioA_truncated_match :
    extract_catalog_items "Кофе латте 1200 тг".data =
      some [⟨1, "Кофе латте 0 тг".data, 120, "KZT".data,
             "Кофе латте 1200 тг".data⟩] := by decide

/-- C2: catalog extraction is not total.  On the line
`"Товар 1.234.567"` the price pattern matches the number `1.234.567`;
number normalization takes the non-European branch (no comma), `float`
fails on the two-dot string, and the retry in the `except` branch calls
`float` on the very same string outside any handler, so the exception
escapes `extract_catalog_items` (modelled by `none`). -/
theorem C2_extraction_raises :
    extract_catalog_items "Товар 1.234.567".data = none := by decide

/-- C6: scenario B.  For `"Пицца Маргарита - 3.500,00 €"` the matched
number `3.500,00` has the `digits '.' three-digits` shape and contains a
comma, so `.` is dropped as a thousands separator and `,` becomes the
decimal point, giving 3500; the currency token `€` normalizes to
`"EUR"`. -/
theorem C6_scenarioB_euro_style :
    extract_catalog_items "Пицца Маргарита - 3.500,00 €".data =
      some [⟨1, "Пицца Маргарита".data, 3500, "EUR".data,
             "Пицца Маргарита - 3.500,00 €".data⟩] := by decide

/-- C5 (counterexample): `line_no` is not the 1-based line number in the
raw text.  For the raw text `"\nКофе 100 тг"` the only item carries
`line_no = 1`, yet raw line 1 is the blank line and the item's source
line `"Кофе 100 тг"` is raw line 2: the extractor numbers the
list of non-blank stripped lines, not the raw lines. -/
theorem C5_lineNo_counterexample :
    extract_catalog_items "\nКофе 100 тг".data =
      some [⟨1, "Кофе".data, 100, "KZT".data, "Кофе 100 тг".data⟩] ∧
    pySplitlines "\nКофе 100 тг".data = [[], "Кофе 100 тг".data] ∧
    ([] : Str) ≠ "Кофе 100 тг".data := by decide

/-- C9 (counterexample): the sheet header emitted by `xlsx_to_text` is
`"[Лист: <name>]"`, not `"[Sheet: <name>]"` as claimed: on a workbook
with a single sheet named `A` and no rows the whole output is
`"[Лист: A]"`. -/
theorem C9_header_counterexample :
    xlsx_to_text [⟨"A".data, []⟩] = "[Лист: A]".data ∧
    "[Лист: A]".data ≠ "[Sheet: A]".data := by decide

/-- C3 (counterexample): with `max_chars = 1 > overlap = 0` the claimed
coverage fails.  On `"a b"` (already normalized) the middle window is
the single space, which strips to empty and is dropped, so the space
character at position 1 of the normalized text appears in no returned
chunk. -/
theorem C3_coverage_counterexample :
    chunk_text "a b".data 1 0 = some ["a".data, "b".data] ∧
    normalizeWs "a b".data = "a b".data ∧
    ∀ c ∈ ["a".data, "b".data], ¬(' ' ∈ c) := by decide

/-- C10: when the resolved credential is falsy (`None` or empty), the
query path returns the empty list before touching the scoring logic;
the model is state-explicit and the function only reads the stored
rows, so the stored state is unchanged by construction. -/
theorem C10_missing_credential_empty (resolver : Option (Option Str))
    (env : Option Str) (qv : Vec) (rows : List (Str × Vec)) (k : ℕ)
    (h : pyTruthy (resolve_api_key resolver env) = false) :
    retrieve_top_k resolver env qv rows k = [] := by
  unfold retrieve_top_k
  rw [h]
  simp

theorem C10_missing_credential_empty_witness :
    pyTruthy (resolve_api_key none none) = false ∧
      retrieve_top_k none none [(1 : ℝ)] [("a".data, [(1 : ℝ)])] 4 = [] :=
  ⟨by decide,
   C10_missing_credential_empty none none [(1 : ℝ)] [("a".data, [(1 : ℝ)])] 4
     (by decide)⟩

/-- Auxiliary facts for C4: the comparison is transitive and total. -/
theorem scoreLe_trans (a b c : Str × ℝ) (h1 : scoreLe a b) (h2 : scoreLe b c) :
    scoreLe a c := by
  simp only [scoreLe, decide_eq_true_eq] at *
  exact le_trans h2 h1

theorem scoreLe_total (a b : Str × ℝ) : scoreLe a b || scoreLe b a := by
  simp only [scoreLe, Bool.or_eq_true, decide_eq_true_eq]
  exact le_total b.2 a.2

/-- C4: with a usable credential, `retrieve_top_k` returns exactly
`min k corpus_size` pairs, their scores are non-increasing, and an empty
corpus yields the empty result (the function is total, so no error can
arise). -/
theorem C4_topk_sorted_length (resolver : Option (Option Str))
    (env : Option Str) (qv : Vec) (rows : List (Str × Vec)) (k : ℕ)
    (h : pyTruthy (resolve_api_key resolver env) = true) :
    (retrieve_top_k resolver env qv rows k).length = min k rows.length ∧
    List.Sorted (· ≥ ·)
      ((retrieve_top_k resolver env qv rows k).map Prod.snd) ∧
    (rows = [] → retrieve_top_k resolver env qv rows k = []) := by
  unfold retrieve_top_k
  rw [h]
  simp only [Bool.not_true, Bool.false_eq_true, if_false]
  refine ⟨?_, ?_, ?_⟩
  · simp [List.length_take]
  · have hs : (List.mergeSort (rows.map fun r => (r.1, cosine_sim qv r.2))
        scoreLe).Pairwise (scoreLe · ·) :=
      List.sorted_mergeSort scoreLe_trans scoreLe_total _
    have ht := hs.sublist (List.take_sublist k _)
    rw [List.Sorted, List.pairwise_map]
    refine ht.imp ?_
    intro a b hab
    simpa [scoreLe, ge_iff_le] using hab
  · intro hrows
    subst hrows
    simp [List.mergeSort]

theorem C4_topk_sorted_length_witness :
    pyTruthy (resolve_api_key (some (some "k".data)) none) = true ∧
      ((retrieve_top_k (some (some "k".data)) none [(1 : ℝ)]
          [("a".data, [(1 : ℝ)]), ("b".data, [(2 : ℝ)])] 5).length =
        min 5 [("a".data, [(1 : ℝ)]), ("b".data, [(2 : ℝ)])].length ∧
      List.Sorted (· ≥ ·)
        ((retrieve_top_k (some (some "k".data)) none [(1 : ℝ)]
          [("a".data, [(1 : ℝ)]), ("b".data, [(2 : ℝ)])] 5).map Prod.snd) ∧
      ([("a".data, [(1 : ℝ)]), ("b".data, [(2 : ℝ)])] = ([] : List (Str × Vec)) →
        retrieve_top_k (some (some "k".data)) none [(1 : ℝ)]
          [("a".data, [(1 : ℝ)]), ("b".data, [(2 : ℝ)])] 5 = [])) :=
  ⟨by decide,
   C4_topk_sorted_length (some (some "k".data)) none [(1 : ℝ)]
     [("a".data, [(1 : ℝ)]), ("b".data, [(2 : ℝ)])] 5 (by decide)⟩

/-- The inner row loop only appends: it produces the `filterMap` of the
rows after the accumulated parts. -/
theorem sheetRowsLoop_eq (rows : List (List (Option Str))) :
    ∀ parts, sheetRowsLoop parts rows =
      parts ++ rows.filterMap (fun row =>
        let cs := rowCells row
        if cs.isEmpty then none else some (joinSep " | ".data cs)) := by
  induction rows with
  | nil => intro parts; simp [sheetRowsLoop]
  | cons row rest ih =>
    intro parts
    simp only [sheetRowsLoop, List.foldl_cons, List.filterMap_cons]
    by_cases hc : (rowCells row).isEmpty
    · simpa [hc, sheetRowsLoop] using ih parts
    · simpa [hc, sheetRowsLoop] using ih (parts ++ [joinSep " | ".data (rowCells row)])

/-- The outer sheet loop likewise accumulates one header and the row
lines per sheet. -/
theorem xlsxFold_eq (wb : List Sheet) :
    ∀ parts,
      wb.foldl (fun parts sh =>
        sheetRowsLoop (parts ++ ["[Лист: ".data ++ sh.title ++ "]".data]) sh.rows)
        parts =
      parts ++ wb.flatMap (fun sh =>
        ("[Лист: ".data ++ sh.title ++ "]".data) ::
          sh.rows.filterMap (fun row =>
            let cs := rowCells row
            if cs.isEmpty then none else some (joinSep " | ".data cs))) := by
  induction wb with
  | nil => intro parts; simp
  | cons sh rest ih =>
    intro parts
    rw [List.foldl_cons, sheetRowsLoop_eq, ih]
    simp

/-- C9 (amended): substituting the actual header text, the spreadsheet
extractor emits, for each sheet in workbook order, the header line
`"[Лист: <name>]"`, followed by one line per row that has some
non-empty stringified whitespace-trimmed cell, those cell values joined
by `" | "`; blank rows contribute no line; all lines are joined by
newlines. -/
theorem C9_xlsx_layout (wb : List Sheet) :
    xlsx_to_text wb =
      joinSep ['\n']
        (wb.flatMap (fun sh =>
          ("[Лист: ".data ++ sh.title ++ "]".data) ::
            sh.rows.filterMap (fun row =>
              let cs := row.filterMap (fun c =>
                match c with
                | none => none
                | some s =>
                  let t := pyStrip s
                  if t.isEmpty then none else some t)
              if cs.isEmpty then none else some (joinSep " | ".data cs)))) := by
  unfold xlsx_to_text
  rw [xlsxFold_eq]
  rfl

/-- An emitted item carries the loop counter as `line_no` and the
processed line as `raw_line`. -/
theorem processLine_fields (i : ℕ) (prev : Option Str) (line : Str)
    (it : CatalogItem) (h : processLine i prev line = some (some it)) :
    it.line_no = i ∧ it.raw_line = line := by
  unfold processLine at h
  cases hps : priceSearch line with
  | none => simp only [hps] at h; simp at h
  | some m =>
    simp only [hps] at h
    cases hn : normalize_number m.num with
    | none => simp only [hn] at h; simp at h
    | some v =>
      simp only [hn, Option.some.injEq] at h
      rw [← h]
      exact ⟨rfl, rfl⟩

/-- Every item produced from position `i` onwards points back, through
its `line_no`, at its own source line in the processed line list. -/
theorem extractGo_lineNo (ls : List Str) :
    ∀ (i : ℕ) (prev : Option Str) (items : List CatalogItem),
      extractGo i prev ls = some items →
      ∀ it ∈ items, ∃ j, it.line_no = i + j ∧ ls[j]? = some it.raw_line := by
  induction ls with
  | nil =>
    intro i prev items h it hit
    simp only [extractGo, Option.some.injEq] at h
    subst h
    simp at hit
  | cons line rest ih =>
    intro i prev items h it hit
    simp only [extractGo] at h
    cases hp : processLine i prev line with
    | none => rw [hp] at h; simp at h
    | some o =>
      rw [hp] at h
      cases o with
      | none =>
        obtain ⟨j, hj, hg⟩ := ih (i + 1) (some line) items h it hit
        exact ⟨j + 1, by omega, by simpa using hg⟩
      | some item =>
        simp only [Option.map_eq_some'] at h
        obtain ⟨items', hrec, hcons⟩ := h
        subst hcons
        rcases List.mem_cons.mp hit with hItem | hMem
        · subst hItem
          obtain ⟨hl, hr⟩ := processLine_fields i prev line it hp
          exact ⟨0, by omega, by simp [hr]⟩
        · obtain ⟨j, hj, hg⟩ := ih (i + 1) (some line) items' hrec it hMem
          exact ⟨j + 1, by omega, by simpa using hg⟩

/-- C5 (amended): `line_no` is the 1-based position of the item's
source line within the sequence of non-blank stripped lines of the raw
text (blank lines are filtered out before numbering), and `raw_line` is
exactly that line. -/
theorem C5_lineNo_indexes_nonblank_lines (text : Str)
    (items : List CatalogItem) (it : CatalogItem)
    (h : extract_catalog_items text = some items) (hit : it ∈ items) :
    1 ≤ it.line_no ∧
      (nonBlankLines text)[it.line_no - 1]? = some it.raw_line := by
  obtain ⟨j, hj, hg⟩ := extractGo_lineNo (nonBlankLines text) 1 none items h it hit
  constructor
  · omega
  · rw [hj]
    simpa using hg

theorem C5_lineNo_indexes_nonblank_lines_witness :
    extract_catalog_items "\n\nКофе 100 тг".data =
      some [⟨1, "Кофе".data, 100, "KZT".data, "Кофе 100 тг".data⟩] ∧
    (⟨1, "Кофе".data, 100, "KZT".data, "Кофе 100 тг".data⟩ : CatalogItem) ∈
      [(⟨1, "Кофе".data, 100, "KZT".data, "Кофе 100 тг".data⟩ : CatalogItem)] ∧
    (1 ≤ (⟨1, "Кофе".data, 100, "KZT".data,
            "Кофе 100 тг".data⟩ : CatalogItem).line_no ∧
      (nonBlankLines "\n\nКофе 100 тг".data)[
        (⟨1, "Кофе".data, 100, "KZT".data,
          "Кофе 100 тг".data⟩ : CatalogItem).line_no - 1]? =
        some (⟨1, "Кофе".data, 100, "KZT".data,
          "Кофе 100 тг".data⟩ : CatalogItem).raw_line) :=
  ⟨by decide, by decide,
   C5_lineNo_indexes_nonblank_lines "\n\nКофе 100 тг".data
     [⟨1, "Кофе".data, 100, "KZT".data, "Кофе 100 тг".data⟩]
     ⟨1, "Кофе".data, 100, "KZT".data, "Кофе 100 тг".data⟩ (by decide)
     (by decide)⟩

/-- A digit is none of the separator characters handled by the number
normalizer. -/
theorem digit_ne_special (c : Char) (h : isDigitA c = true) :
    c ≠ ' ' ∧ c ≠ ' ' ∧ c ≠ ',' ∧ c ≠ '.' ∧ c ≠ '-' ∧ c ≠ '+' := by
  refine ⟨?_, ?_, ?_, ?_, ?_, ?_⟩ <;> (rintro rfl; exact absurd h (by decide))

/-- `takeWhile`/`dropWhile` through an append whose left part satisfies
the predicate and whose first right element does not. -/
theorem takeWhile_dropWhile_app {p : Char → Bool} :
    ∀ (a : Str) (x : Char) (b : Str), (∀ c ∈ a, p c = true) → p x = false →
      (a ++ x :: b).takeWhile p = a ∧ (a ++ x :: b).dropWhile p = x :: b := by
  intro a
  induction a with
  | nil =>
    intro x b _ hx
    simp [List.takeWhile_cons, List.dropWhile_cons, hx]
  | cons c a ih =>
    intro x b hall hx
    have hc : p c = true := hall c (by simp)
    obtain ⟨h1, h2⟩ := ih x b (fun d hd => hall d (by simp [hd])) hx
    simp [List.takeWhile_cons, List.dropWhile_cons, hc, h1, h2]

/-- `float` applies the unsigned parse directly when the first character
is a digit. -/
theorem pyFloat_of_digit_head (c : Char) (s' : Str) (h : isDigitA c = true) :
    pyFloat (c :: s') = pyFloatCore false (c :: s') := by
  have hc := digit_ne_special c h
  unfold pyFloat
  rw [if_neg (by simp [hc.2.2.2.2.1]), if_neg (by simp [hc.2.2.2.2.2])]

/-- `float` on a non-empty all-digit string. -/
theorem pyFloat_intStr (a : Str) (hne : a ≠ [])
    (hdig : ∀ c ∈ a, isDigitA c = true) :
    pyFloat a = some (qOfParts false (digitsVal a) 0 0) := by
  obtain ⟨c, a', rfl⟩ := List.exists_cons_of_ne_nil hne
  rw [pyFloat_of_digit_head c a' (hdig c (by simp))]
  unfold pyFloatCore
  rw [if_pos]
  simp only [List.isEmpty_cons, Bool.not_false, Bool.true_and]
  exact List.all_eq_true.mpr hdig

/-- `float` on a digits-dot-digits string. -/
theorem pyFloat_decStr (a b : Str) (hane : a ≠ []) (hbne : b ≠ [])
    (hadig : ∀ c ∈ a, isDigitA c = true)
    (hbdig : ∀ c ∈ b, isDigitA c = true) :
    pyFloat (a ++ '.' :: b) =
      some (qOfParts false (digitsVal a) (digitsVal b) b.length) := by
  have hdot : ('.' : Char) ∈ a ++ '.' :: b := by simp
  have hnotall : (a ++ '.' :: b).all isDigitA = false := by
    rw [Bool.eq_false_iff]
    intro hall
    exact absurd (List.all_eq_true.mp hall '.' hdot) (by decide)
  have hcnta : List.count '.' a = 0 := by
    rw [List.count_eq_zero]
    intro hmem
    exact absurd (hadig '.' hmem) (by decide)
  have hcntb : List.count '.' b = 0 := by
    rw [List.count_eq_zero]
    intro hmem
    exact absurd (hbdig '.' hmem) (by decide)
  have hcnt : List.count '.' (a ++ '.' :: b) = 1 := by
    rw [List.count_append, hcnta, List.count_cons_self, hcntb]
  have htw := takeWhile_dropWhile_app (p := fun x => decide (x ≠ '.'))
    a '.' b
    (fun d hd => by
      simp only [decide_eq_true_eq]
      exact (digit_ne_special d (hadig d hd)).2.2.2.1)
    (by simp)
  have hbne' : b.isEmpty = false := by
    rw [Bool.eq_false_iff]
    intro hb
    exact hbne (List.isEmpty_iff.mp hb)
  obtain ⟨c, a', rfl⟩ := List.exists_cons_of_ne_nil hane
  rw [List.cons_append, pyFloat_of_digit_head c (a' ++ '.' :: b)
    (hadig c (by simp)), ← List.cons_append]
  unfold pyFloatCore
  rw [if_neg (by rw [hnotall]; simp), if_pos hcnt]
  rw [htw.1, htw.2]
  simp only [List.drop_succ_cons, List.drop_zero]
  rw [if_pos]
  rw [List.all_eq_true.mpr hadig, List.all_eq_true.mpr hbdig, hbne']
  simp

/-- A string without spaces, no-break spaces or commas passes through
the replacement phase of `_normalize_number` unchanged, so a successful
direct parse is returned as-is. -/
theorem normalize_number_of_clean (s : Str)
    (hchar : ∀ c ∈ s, c ≠ ' ' ∧ c ≠ ' ' ∧ c ≠ ',')
    (hsome : (pyFloat s).isSome = true) :
    normalize_number s = pyFloat s := by
  have hfil : s.filter (fun c => !(c == ' ' || c == ' ')) = s :=
    List.filter_eq_self.mpr (fun c hc => by
      obtain ⟨h1, h2, _⟩ := hchar c hc
      simp [h1, h2])
  have hmem : ¬(',' : Char) ∈ s := fun hm => (hchar ',' hm).2.2 rfl
  have hcon : s.contains ',' = false := by
    rw [Bool.eq_false_iff]
    intro hc
    exact hmem (List.elem_iff.mp hc)
  have hmap : s.map commaToDot = s := by
    have hcd : ∀ c ∈ s, commaToDot c = id c := fun c hc => by
      simp only [commaToDot, id_eq]
      rw [if_neg (hchar c hc).2.2]
    rw [List.map_congr_left hcd, List.map_id]
  obtain ⟨v, hv⟩ := Option.isSome_iff_exists.mp hsome
  simp only [normalize_number]
  rw [hfil, hcon, Bool.and_false]
  simp only [Bool.false_eq_true, if_false]
  rw [hmap, hv]

/-- C7: on an already-normalized decimal string (digits, optionally a
dot and more digits) `_normalize_number` coincides with a direct
`float` parse, which succeeds; in particular renormalizing a normalized
number leaves its value unchanged. -/
theorem C7_normalize_number_idempotent (s : Str)
    (h : plainDecimal s = true) :
    normalize_number s = pyFloat s ∧ (pyFloat s).isSome = true := by
  have hsplit : s.takeWhile isDigitA ++ s.dropWhile isDigitA = s :=
    List.takeWhile_append_dropWhile isDigitA s
  simp only [plainDecimal, Bool.and_eq_true, Bool.not_eq_eq_eq_not, Bool.not_true,
    Bool.or_eq_true] at h
  obtain ⟨hane, hrest⟩ := h
  have hane' : s.takeWhile isDigitA ≠ [] := by
    intro hnil
    rw [hnil] at hane
    simp at hane
  have hadig : ∀ c ∈ s.takeWhile isDigitA, isDigitA c = true :=
    fun c hc => List.mem_takeWhile_imp hc
  cases hrest with
  | inl hre =>
    have hrnil : s.dropWhile isDigitA = [] := by simpa [List.isEmpty_iff] using hre
    have hs : s = s.takeWhile isDigitA := by
      conv_lhs => rw [← hsplit]
      rw [hrnil, List.append_nil]
    have hdig : ∀ c ∈ s, isDigitA c = true := by rw [hs]; exact hadig
    have hpf := pyFloat_intStr s (by rw [hs]; exact hane') hdig
    refine ⟨?_, by rw [hpf]; rfl⟩
    exact normalize_number_of_clean s
      (fun c hc => by
        have := digit_ne_special c (hdig c hc)
        exact ⟨this.1, this.2.1, this.2.2.1⟩)
      (by rw [hpf]; rfl)
  | inr hre =>
    obtain ⟨⟨hhead, hbne⟩, hball⟩ := hre
    have hhead' : (s.dropWhile isDigitA).head? = some '.' := by
      simpa using hhead
    obtain ⟨r', hr'⟩ : ∃ r', s.dropWhile isDigitA = '.' :: r' := by
      cases hcase : s.dropWhile isDigitA with
      | nil => rw [hcase] at hhead'; simp at hhead'
      | cons x xs =>
        rw [hcase] at hhead'
        simp only [List.head?_cons, Option.some.injEq] at hhead'
        exact ⟨xs, by rw [hhead']⟩
    rw [hr'] at hbne hball
    simp only [List.drop_succ_cons, List.drop_zero] at hbne hball
    have hbne' : r' ≠ [] := by
      intro hnil
      rw [hnil] at hbne
      simp at hbne
    have hbdig : ∀ c ∈ r', isDigitA c = true := by
      intro c hc
      exact List.all_eq_true.mp hball c hc
    have hs : s = s.takeWhile isDigitA ++ '.' :: r' := by
      conv_lhs => rw [← hsplit]
      rw [hr']
    have hpf := pyFloat_decStr (s.takeWhile isDigitA) r' hane' hbne' hadig hbdig
    rw [← hs] at hpf
    refine ⟨?_, by rw [hpf]; rfl⟩
    refine normalize_number_of_clean s ?_ (by rw [hpf]; rfl)
    intro c hc
    rw [hs] at hc
    rcases List.mem_append.mp hc with hca | hcr
    · have := digit_ne_special c (hadig c hca)
      exact ⟨this.1, this.2.1, this.2.2.1⟩
    · rcases List.mem_cons.mp hcr with rfl | hcr'
      · exact ⟨by decide, by decide, by decide⟩
      · have := digit_ne_special c (hbdig c hcr')
        exact ⟨this.1, this.2.1, this.2.2.1⟩

theorem C7_normalize_number_idempotent_witness :
    plainDecimal "1200.00".data = true ∧
      (normalize_number "1200.00".data = pyFloat "1200.00".data ∧
        (pyFloat "1200.00".data).isSome = true) :=
  ⟨by decide, C7_normalize_number_idempotent "1200.00".data (by decide)⟩

/-- While the overlap is smaller than the window, the loop advances by
at least one position per round, so `length + 1` fuel always suffices
and every emitted chunk is at most `maxChars` long. -/
theorem chunkGo_some (t : Str) (mc ov : ℕ) (hov : ov < mc) :
    ∀ fuel, ∀ start, t.length - start < fuel →
      ∃ l, chunkGo t mc ov fuel start = some l ∧ ∀ c ∈ l, c.length ≤ mc := by
  intro fuel
  induction fuel with
  | zero => intro start h; omega
  | succ fuel ih =>
    intro start h
    by_cases hs : start < t.length
    · by_cases he : min t.length (start + mc) = t.length
      · simp only [chunkGo, if_pos hs]
        rw [if_pos he]
        refine ⟨_, rfl, ?_⟩
        intro c hc
        split at hc
        · rcases List.mem_cons.mp hc with rfl | hmem
          · simp only [List.length_take, List.length_drop]
            omega
          · simp at hmem
        · simp at hc
      · obtain ⟨l', hl', hb⟩ := ih (min t.length (start + mc) - ov) (by omega)
        simp only [chunkGo, if_pos hs]
        rw [if_neg he, hl']
        refine ⟨_, rfl, ?_⟩
        intro c hc
        split at hc
        · rcases List.mem_cons.mp hc with rfl | hmem
          · simp only [List.length_take, List.length_drop]
            omega
          · exact hb c hmem
        · exact hb c hc
    · exact ⟨[], by simp [chunkGo, hs], by simp⟩

/-- C8: for every text and `overlap < max_chars` the chunking loop
terminates with a finite list (the fuel of the model is not exhausted),
and every chunk has length at most `max_chars`. -/
theorem C8_chunk_terminates_and_bounded (text : Str) (mc ov : ℕ)
    (hov : ov < mc) :
    ∃ l, chunk_text text mc ov = some l ∧ ∀ c ∈ l, c.length ≤ mc := by
  simp only [chunk_text]
  exact chunkGo_some (normalizeWs text) mc ov hov
    ((normalizeWs text).length + 1) 0 (by omega)

theorem C8_chunk_terminates_and_bounded_witness :
    0 < 2 ∧ ∃ l, chunk_text "abc".data 2 0 = some l ∧
      ∀ c ∈ l, c.length ≤ 2 :=
  ⟨by decide, C8_chunk_terminates_and_bounded "abc".data 2 0 (by decide)⟩

/-- The head surviving `dropWhile` falsifies the predicate. -/
theorem dropWhile_head_not {p : Char → Bool} :
    ∀ (l : Str) (c : Char) (rest : Str),
      l.dropWhile p = c :: rest → p c = false := by
  intro l
  induction l with
  | nil => intro c rest h; simp at h
  | cons x xs ih =>
    intro c rest h
    rw [List.dropWhile_cons] at h
    by_cases hp : p x
    · rw [if_pos hp] at h
      exact ih c rest h
    · rw [if_neg hp] at h
      obtain ⟨rfl, -⟩ := List.cons.inj h
      exact Bool.eq_false_iff.mpr hp

/-- A list containing a non-whitespace character does not strip to
empty. -/
theorem pyStrip_ne_nil {w : Str} {c : Char} (hc : c ∈ w)
    (hnc : pyWs c = false) : pyStrip w ≠ [] := by
  intro hnil
  unfold pyStrip at hnil
  rw [List.reverse_eq_nil_iff, List.dropWhile_eq_nil_iff] at hnil
  have hall : ∀ x ∈ w.dropWhile pyWs, pyWs x = true := by
    intro x hx
    exact hnil x (by simpa using hx)
  have hcmem : c ∈ w.takeWhile pyWs ++ w.dropWhile pyWs := by
    rw [List.takeWhile_append_dropWhile]
    exact hc
  rcases List.mem_append.mp hcmem with htk | hdr
  · rw [List.mem_takeWhile_imp htk] at hnc
    exact Bool.true_eq_false.mp hnc
  · rw [hall c hdr] at hnc
    exact Bool.true_eq_false.mp hnc

/-- Every field produced by `str.split()` is non-empty and free of
whitespace. -/
theorem pySplitGo_words :
    ∀ (fuel : ℕ) (s : Str) (w : Str), w ∈ pySplitGo fuel s →
      w ≠ [] ∧ ∀ c ∈ w, pyWs c = false := by
  intro fuel
  induction fuel with
  | zero => intro s w h; simp [pySplitGo] at h
  | succ fuel ih =>
    intro s w h
    simp only [pySplitGo] at h
    by_cases hemp : (s.dropWhile pyWs).isEmpty
    · rw [if_pos hemp] at h
      simp at h
    · rw [if_neg hemp] at h
      rcases List.mem_cons.mp h with rfl | hmem
      · constructor
        · intro hnil
          have hne : s.dropWhile pyWs ≠ [] := by
            intro he
            rw [he] at hemp
            exact hemp rfl
          obtain ⟨c, rest, hcr⟩ := List.exists_cons_of_ne_nil hne
          have hc : pyWs c = false := dropWhile_head_not s c rest hcr
          rw [hcr] at hnil
          rw [List.takeWhile_cons, hc] at hnil
          simp at hnil
        · intro c hc
          have := List.mem_takeWhile_imp hc
          simpa using this
      · exact ih _ w hmem

/-- A list of non-whitespace characters trivially has no two adjacent
whitespace characters. -/
theorem noAdjWs_of_all_nonws {l : Str} (h : ∀ c ∈ l, pyWs c = false) :
    NoAdjWs l := by
  induction l with
  | nil => exact List.chain'_nil
  | cons c rest ih =>
    cases rest with
    | nil => exact List.chain'_singleton c
    | cons d rest' =>
      refine List.chain'_cons.mpr
        ⟨?_, ih (fun x hx => h x (List.mem_cons_of_mem c hx))⟩
      rintro ⟨hc, -⟩
      rw [h c (by simp)] at hc
      exact Bool.false_ne_true hc

/-- The join of a non-empty head word is non-empty. -/
theorem joinSep_cons_ne_nil {v : Str} (hv : v ≠ []) (rest : List Str) :
    joinSep [' '] (v :: rest) ≠ [] := by
  cases rest with
  | nil => exact hv
  | cons u rest' =>
    simp only [joinSep]
    intro hnil
    rw [List.append_assoc] at hnil
    exact hv (List.append_eq_nil.mp hnil).1

/-- The separator-joined word list has no two adjacent whitespace
characters, a non-whitespace last character and a non-whitespace head,
provided every word is non-empty and whitespace-free. -/
theorem joinSep_shape :
    ∀ ws : List Str, (∀ w ∈ ws, w ≠ [] ∧ ∀ c ∈ w, pyWs c = false) →
      NoAdjWs (joinSep [' '] ws) ∧ LastNonWs (joinSep [' '] ws) ∧
        (∀ c, (joinSep [' '] ws).head? = some c → pyWs c = false) := by
  intro ws
  induction ws with
  | nil =>
    intro _
    refine ⟨List.chain'_nil, ?_, ?_⟩ <;> intro c h <;> simp [joinSep] at h
  | cons w rest ih =>
    intro hall
    obtain ⟨hwne, hwns⟩ := hall w (by simp)
    cases rest with
    | nil =>
      refine ⟨noAdjWs_of_all_nonws hwns, ?_, ?_⟩
      · intro c hc
        have hcw : c ∈ w := by
          obtain ⟨hne, rfl⟩ :=
            List.mem_getLast?_eq_getLast (Option.mem_def.mpr hc)
          exact List.getLast_mem hne
        intro ht
        rw [hwns c hcw] at ht
        exact Bool.false_ne_true ht
      · intro c hc
        obtain ⟨x, xs, rfl⟩ := List.exists_cons_of_ne_nil hwne
        have hred : joinSep [' '] [x :: xs] = x :: xs := rfl
        rw [hred, List.head?_cons, Option.some.injEq] at hc
        subst hc
        exact hwns _ (by simp)
    | cons v rest' =>
      obtain ⟨hj, hjl, hjh⟩ := ih (fun u hu => hall u (List.mem_cons_of_mem w hu))
      have hvne : v ≠ [] := (hall v (by simp)).1
      have hjne : joinSep [' '] (v :: rest') ≠ [] := joinSep_cons_ne_nil hvne rest'
      have hform : joinSep [' '] (w :: v :: rest') =
          w ++ ' ' :: joinSep [' '] (v :: rest') := by
        simp [joinSep]
      refine ⟨?_, ?_, ?_⟩
      · rw [hform]
        unfold NoAdjWs
        rw [List.chain'_append]
        refine ⟨noAdjWs_of_all_nonws hwns, ?_, ?_⟩
        · rw [List.chain'_cons']
          refine ⟨?_, hj⟩
          intro y hy
          rintro ⟨-, hyw⟩
          rw [hjh y hy] at hyw
          exact Bool.false_ne_true hyw
        · intro x hx y hy
          rintro ⟨hxw, -⟩
          have hxmem : x ∈ w := by
            obtain ⟨hne, rfl⟩ := List.mem_getLast?_eq_getLast hx
            exact List.getLast_mem hne
          rw [hwns x hxmem] at hxw
          exact Bool.false_ne_true hxw
      · intro c hc
        rw [hform, List.getLast?_append] at hc
        obtain ⟨x, xs, hjx⟩ := List.exists_cons_of_ne_nil hjne
        rw [hjx, List.getLast?_cons_cons] at hc
        have hgl : (x :: xs).getLast? = some ((x :: xs).getLast (by simp)) :=
          List.getLast?_eq_getLast _ (by simp)
        rw [hgl, Option.or_some] at hc
        exact hjl c (by rw [hjx, hgl]; exact hc)
      · intro c hc
        rw [hform] at hc
        obtain ⟨x, xs, rfl⟩ := List.exists_cons_of_ne_nil hwne
        rw [List.cons_append, List.head?_cons, Option.some.injEq] at hc
        subst hc
        exact hwns _ (by simp)

/-- The normalized text has no two adjacent whitespace characters and
does not end in whitespace. -/
theorem normalizeWs_shape (text : Str) :
    NoAdjWs (normalizeWs text) ∧ LastNonWs (normalizeWs text) := by
  obtain ⟨h1, h2, -⟩ :=
    joinSep_shape (pySplit text) (fun w hw => pySplitGo_words _ _ w hw)
  exact ⟨h1, h2⟩

/-- Every window the chunker slices from a normalized-shaped text
contains a non-whitespace character: a window of length at least two
cannot be two adjacent whitespace characters throughout, and the only
length-one window is the final character, which is not whitespace. -/
theorem window_nonws (t : Str) (hch : NoAdjWs t) (hl : LastNonWs t)
    (start k : ℕ) (hk1 : 1 ≤ k) (hle : start + k ≤ t.length)
    (hcase : 2 ≤ k ∨ start + k = t.length) :
    ∃ c ∈ (t.drop start).take k, pyWs c = false := by
  by_cases h2 : 2 ≤ k
  · have hlen : 2 ≤ ((t.drop start).take k).length := by
      rw [List.length_take, List.length_drop]
      omega
    have hchw : NoAdjWs ((t.drop start).take k) :=
      (hch.drop start).take k
    cases hw : (t.drop start).take k with
    | nil => rw [hw] at hlen; simp at hlen
    | cons c1 w1 =>
      cases w1 with
      | nil => rw [hw] at hlen; simp at hlen
      | cons c2 w' =>
        rw [hw] at hchw
        have hr := (List.chain'_cons.mp hchw).1
        by_cases hc1 : pyWs c1 = true
        · refine ⟨c2, by simp, ?_⟩
          cases hc2 : pyWs c2 with
          | false => rfl
          | true => exact absurd ⟨hc1, hc2⟩ hr
        · exact ⟨c1, by simp, Bool.eq_false_iff.mpr hc1⟩
  · have hk : k = 1 := by omega
    have hend : start + 1 = t.length := by
      rcases hcase with h | h
      · omega
      · omega
    subst hk
    have hdlen : (t.drop start).length = 1 := by
      rw [List.length_drop]; omega
    obtain ⟨c, rest, hcr⟩ : ∃ c rest, t.drop start = c :: rest := by
      cases hd : t.drop start with
      | nil => rw [hd] at hdlen; simp at hdlen
      | cons c rest => exact ⟨c, rest, rfl⟩
    have hrest : rest = [] := by
      rw [hcr] at hdlen
      simpa using hdlen
    subst hrest
    have hglast : t.getLast? = some c := by
      conv_lhs => rw [← List.take_append_drop start t]
      rw [List.getLast?_append_of_ne_nil _ (by rw [hcr]; simp), hcr]
      rfl
    have hc : ¬pyWs c = true := hl c hglast
    refine ⟨c, by rw [hcr]; simp, Bool.eq_false_iff.mpr hc⟩

/-- Main coverage invariant: from any position `start < length`, a
chunk list is produced whose head covers `[start, start + min (len -
start) mc)` and whose `dropJoin` rebuilds exactly the suffix of the
text from `start`. -/
theorem chunkGo_cover (t : Str) (mc ov : ℕ) (hov : ov < mc) (hmc : 2 ≤ mc)
    (hch : NoAdjWs t) (hl : LastNonWs t) :
    ∀ fuel, ∀ start, t.length - start < fuel → start < t.length →
      ∃ c0 cs, chunkGo t mc ov fuel start = some (c0 :: cs) ∧
        c0.length = min (t.length - start) mc ∧
        dropJoin ov (c0 :: cs) = t.drop start := by
  intro fuel
  induction fuel with
  | zero => intro start h _; omega
  | succ fuel ih =>
    intro start hfu hs
    obtain ⟨c, hcmem, hcns⟩ :=
      window_nonws t hch hl start (min t.length (start + mc) - start)
        (by omega) (by omega) (by omega)
    have hkeepb :
        (pyStrip ((t.drop start).take
          (min t.length (start + mc) - start))).isEmpty = false := by
      rw [Bool.eq_false_iff]
      intro hb
      exact pyStrip_ne_nil hcmem hcns (List.isEmpty_iff.mp hb)
    by_cases he : min t.length (start + mc) = t.length
    · simp only [chunkGo, if_pos hs]
      rw [if_pos he]
      refine ⟨(t.drop start).take (min t.length (start + mc) - start), [],
        by simp [hkeepb], ?_, ?_⟩
      · rw [List.length_take, List.length_drop]; omega
      · simp only [dropJoin, List.flatMap_nil, List.append_nil]
        have hfull : (t.drop start).length =
            min t.length (start + mc) - start := by
          rw [List.length_drop]; omega
        rw [← hfull, List.take_length]
    · obtain ⟨c0', cs', hrec, hlen', hdj'⟩ :=
        ih (min t.length (start + mc) - ov) (by omega) (by omega)
      simp only [chunkGo, if_pos hs]
      rw [if_neg he, hrec]
      refine ⟨(t.drop start).take (min t.length (start + mc) - start),
        c0' :: cs', by simp [hkeepb], ?_, ?_⟩
      · rw [List.length_take, List.length_drop]; omega
      · have hov' : ov ≤ c0'.length := by
          rw [hlen']; omega
        simp only [dropJoin, List.flatMap_cons] at hdj' ⊢
        have h2 : List.drop ov c0' ++ cs'.flatMap (List.drop ov) =
            (c0' ++ cs'.flatMap (List.drop ov)).drop ov := by
          rw [List.drop_append_eq_append_drop,
            Nat.sub_eq_zero_of_le hov', List.drop_zero]
        rw [h2, hdj', List.drop_drop]
        have harith : min t.length (start + mc) - ov + ov =
            start + (min t.length (start + mc) - start) := by omega
        rw [harith, List.drop_take_append_drop]

/-- C3 (amended): for `overlap < max_chars` and `max_chars ≥ 2`, the
chunking loop terminates and concatenating the chunks' non-overlapping
portions (each chunk after the first with its first `overlap`
characters removed) rebuilds the whole whitespace-normalized input, so
every character is covered by some chunk.  (`max_chars = 1` is excluded:
there a window consisting of one space strips to empty and is dropped,
as the counterexample shows.) -/
theorem C3_chunk_coverage (text : Str) (mc ov : ℕ) (hov : ov < mc)
    (hmc : 2 ≤ mc) :
    ∃ l, chunk_text text mc ov = some l ∧
      dropJoin ov l = normalizeWs text := by
  obtain ⟨hch, hl⟩ := normalizeWs_shape text
  by_cases hn : 0 < (normalizeWs text).length
  · obtain ⟨c0, cs, hres, -, hdj⟩ :=
      chunkGo_cover (normalizeWs text) mc ov hov hmc hch hl
        ((normalizeWs text).length + 1) 0 (by omega) hn
    refine ⟨c0 :: cs, ?_, ?_⟩
    · simp only [chunk_text]
      exact hres
    · rw [hdj, List.drop_zero]
  · have hnil : normalizeWs text = [] := by
      cases hq : normalizeWs text with
      | nil => rfl
      | cons x xs => rw [hq] at hn; simp at hn
    refine ⟨[], ?_, by simp [dropJoin, hnil]⟩
    simp only [chunk_text, hnil]
    rfl

theorem C3_chunk_coverage_witness :
    (0 < 3 ∧ 2 ≤ 3) ∧
      ∃ l, chunk_text "hello world".data 3 0 = some l ∧
        dropJoin 0 l = normalizeWs "hello world".data :=
  ⟨by decide, C3_chunk_coverage "hello world".data 3 0 (by decide) (by decide)⟩

end Rag
